import Mathlib

/-!
Verification of `.travis/docker-update.py`, the single script of the
NumEconCopenhagen/lectures-2019 repository.

The script keeps the pinned `jupyterlab-docker` commit sha in a local
`Dockerfile` synchronized with the newest commit sha of the upstream
repository, queried from the GitHub commits API.

Shallow embedding conventions:
- File contents and shas are `List Char`.
- The regular expression
  `(?<=FROM numeconcopenhagen/jupyterlab-docker:)([0-9a-f]{5,40})`
  together with `re.search(...).group()` is embedded as `searchSha`:
  a left-to-right scan over match positions; at each position the fixed-width
  lookbehind requires the marker to end there, and the greedy quantifier then
  takes `min 40` of the maximal run of lowercase hex digits, provided the run
  has length at least 5.
- Python `str.replace(old, new)` (which substitutes every non-overlapping
  occurrence, left to right) is embedded as `replaceAll`, via fuel recursion
  so that it evaluates by `decide`.
- The network is a parameter `HttpResult`: either a connection failure or a
  response carrying a status code and a body shape. `requests.get` raises on
  connection failure (NetworkError); `r.json()` raises on an unparsable body
  and indexing/field access raise on a wrong shape (FormatError).  The status
  code is carried in the model because the spec speaks about it, even though
  the source never inspects it.
- `__main__` is embedded as `main`, returning the event trace (network
  request, file read, file write), the final file state and the outcome
  (printed message, or the error that aborted the run).
-/

namespace DockerUpdate

/-- `[0-9a-f]` of the source regex: lowercase hexadecimal digits only. -/
def isHex (c : Char) : Bool :=
  ('0' ≤ c && c ≤ '9') || ('a' ≤ c && c ≤ 'f')

/-- The literal lookbehind marker of `REGEX` (line 4 of the source). -/
def markerL : List Char := "FROM numeconcopenhagen/jupyterlab-docker:".data

/-- `leadsWith p s` is true when `p` is an initial segment of `s`
(character-by-character match of the marker at a candidate position). -/
def leadsWith : List Char → List Char → Bool
  | [], _ => true
  | _ :: _, [] => false
  | p :: ps, c :: cs => p == c && leadsWith ps cs

/-- Maximal initial run of lowercase hex digits (what the greedy
`[0-9a-f]{5,40}` consumes before the 40-cap). -/
def hexRun : List Char → List Char
  | [] => []
  | c :: cs => if isHex c then c :: hexRun cs else []

/-- Does the regex match at this position? The fixed-width lookbehind demands
the marker here, and the quantifier needs at least 5 hex digits after it. -/
def goodAt (s : List Char) : Bool :=
  leadsWith markerL s && decide (5 ≤ (hexRun (List.drop markerL.length s)).length)

/-- The sha the regex yields at a matching position: the greedy quantifier
takes at most 40 of the hex run. -/
def shaAt (s : List Char) : List Char :=
  List.take 40 (hexRun (List.drop markerL.length s))

/-- `re.search(REGEX, contents)` followed by `.group()`: scan match positions
left to right, return the sha at the first matching one, `none` otherwise. -/
def searchSha : List Char → Option (List Char)
  | [] => none
  | c :: rest => if goodAt (c :: rest) then some (shaAt (c :: rest)) else searchSha rest

/-- `get_dockerfile_sha` (lines 6-8), as a function of the file contents it
reads: the first regex match, or `none` (the source then raises on
`.group()` of `None`, the PatternNotFound failure). -/
def get_dockerfile_sha (contents : List Char) : Option (List Char) :=
  searchSha contents

/-- Fuel-driven core of Python `str.replace`: replace every non-overlapping
occurrence of `old` in `s`, scanning left to right.  The fuel is the length
of `s`, enough because each step consumes at least one character. -/
def replaceAllGo (old new : List Char) : Nat → List Char → List Char
  | _, [] => []
  | 0, s => s
  | fuel + 1, c :: rest =>
    if leadsWith old (c :: rest) then
      new ++ replaceAllGo old new fuel (List.drop old.length (c :: rest))
    else
      c :: replaceAllGo old new fuel rest

/-- Python `s.replace(old, new)` for nonempty `old`: every non-overlapping
occurrence of `old` is replaced by `new`, left to right.  (The program only
calls it with `old` a regex match of length at least 5; the empty-`old`
corner of Python, which inserts `new` at every boundary, is unreachable and
modelled as the identity.) -/
def replaceAll (s old new : List Char) : List Char :=
  if old.isEmpty then s else replaceAllGo old new s.length s

/-- Error taxonomy of the spec: Dockerfile missing, no regex match, request
failure, unexpected response shape. -/
inductive Err
  | fileNotFound
  | patternNotFound
  | networkError
  | formatError
deriving DecidableEq, Repr

/-- Result of a fetch, and also the outcome of a whole run: either a value
(the printed message for a run) or the error that aborted it. -/
inductive Res
  | ok (val : List Char)
  | err (e : Err)
deriving DecidableEq, Repr

/-- Shape of the HTTP response body, as far as the source inspects it:
`r.json()` fails on an unparsable body; `[0]` fails on a non-array or empty
array; `['sha']` fails when the first entry has no `sha` field.  An array
entry is therefore abstracted to its optional `sha` field. -/
inductive Body
  | notJson
  | jsonOther
  | jsonArray (entries : List (Option (List Char)))
deriving DecidableEq, Repr

/-- The network seen by one run: `requests.get` either fails to connect or
yields a response with a status code and a body. -/
inductive HttpResult
  | connFailure
  | response (status : Nat) (body : Body)
deriving DecidableEq, Repr

/-- `get_latest_jupyterlabdockerfile_sha` (lines 10-12): one GET, then
`r.json()[0]['sha']`.  The status code of a response is never inspected by
the source, and correspondingly never inspected here. -/
def get_latest_jupyterlabdockerfile_sha (net : HttpResult) : Res :=
  match net with
  | .connFailure => .err .networkError
  | .response _ body =>
    match body with
    | .notJson => .err .formatError
    | .jsonOther => .err .formatError
    | .jsonArray [] => .err .formatError
    | .jsonArray (none :: _) => .err .formatError
    | .jsonArray (some sha :: _) => .ok sha

/-- Observable effects of a run, in order. -/
inductive Ev
  | netGet
  | fileRead
  | fileWrite
deriving DecidableEq, Repr

/-- Result of one run of the script: the ordered effect trace, the file state
after the run (`none` = missing), and the outcome. -/
structure RunResult where
  events : List Ev
  file : Option (List Char)
  outcome : Res
deriving DecidableEq, Repr

/-- `f"The new tag is: {jupyterlab_sha}"` (line 22). -/
def msgNew (sha : List Char) : List Char := "The new tag is: ".data ++ sha

/-- `"The tag is update to date"` (line 24, sic). -/
def msgUpToDate : List Char := "The tag is update to date".data

/-- The `__main__` block (lines 14-24).  The source fetches the remote sha
first (line 15), then reads the Dockerfile and extracts the pinned sha
(line 16); if they differ it re-reads the file and overwrites it with
`content.replace(docker_sha, jupyterlab_sha)` (lines 18-21). Any raised
error aborts the run at that point. -/
def main (net : HttpResult) (file : Option (List Char)) : RunResult :=
  match get_latest_jupyterlabdockerfile_sha net with
  | .err e => ⟨[.netGet], file, .err e⟩
  | .ok jupyterlab_sha =>
    match file with
    | none => ⟨[.netGet, .fileRead], none, .err .fileNotFound⟩
    | some content =>
      match get_dockerfile_sha content with
      | none => ⟨[.netGet, .fileRead], some content, .err .patternNotFound⟩
      | some docker_sha =>
        if jupyterlab_sha ≠ docker_sha then
          ⟨[.netGet, .fileRead, .fileRead, .fileWrite],
           some (replaceAll content docker_sha jupyterlab_sha),
           .ok (msgNew jupyterlab_sha)⟩
        else
          ⟨[.netGet, .fileRead], some content, .ok msgUpToDate⟩

/-- A healthy network for concrete runs: status 200, a commit list whose first
entry has sha `fffff`. -/
def goodNet : HttpResult := .response 200 (.jsonArray [some ("fffff".data)])

/-- Executable check that a further run on this file state cannot write:
either the file is missing, or extraction fails, or it extracts exactly the
sha the network returns. -/
def secondRunStable (net : HttpResult) (file : Option (List Char)) : Bool :=
  match file with
  | none => true
  | some c =>
    match get_dockerfile_sha c with
    | none => true
    | some loc => decide (get_latest_jupyterlabdockerfile_sha net = .ok loc)

theorem leadsWith_iff (p s : List Char) : leadsWith p s = true ↔ ∃ t, s = p ++ t := by
  induction p generalizing s with
  | nil => exact ⟨fun _ => ⟨s, rfl⟩, fun _ => rfl⟩
  | cons a ps ih =>
    cases s with
    | nil =>
      constructor
      · intro h; simp [leadsWith] at h
      · rintro ⟨t, h⟩; simp at h
    | cons c cs =>
      constructor
      · intro h
        simp only [leadsWith, Bool.and_eq_true, beq_iff_eq] at h
        obtain ⟨rfl, h2⟩ := h
        obtain ⟨t, rfl⟩ := (ih cs).mp h2
        exact ⟨t, rfl⟩
      · rintro ⟨t, h⟩
        rw [List.cons_append, List.cons.injEq] at h
        obtain ⟨rfl, h2⟩ := h
        have hps : leadsWith ps cs = true := (ih cs).mpr ⟨t, h2⟩
        simp [leadsWith, hps]

theorem hexRun_append (hex suf : List Char) (h : hex.all isHex = true) :
    hexRun (hex ++ suf) = hex ++ hexRun suf := by
  induction hex with
  | nil => rfl
  | cons c cs ih =>
    simp only [List.all_cons, Bool.and_eq_true] at h
    simp only [List.cons_append, hexRun, h.1, if_true, List.append_eq]
    rw [ih h.2]

theorem hexRun_all (t : List Char) : (hexRun t).all isHex = true := by
  induction t with
  | nil => rfl
  | cons c cs ih =>
    simp only [hexRun]
    by_cases h : isHex c = true
    · simp [h, ih]
    · simp [h]

theorem hexRun_append_drop (t : List Char) :
    hexRun t ++ List.drop (hexRun t).length t = t := by
  induction t with
  | nil => rfl
  | cons c cs ih =>
    simp only [hexRun]
    by_cases h : isHex c = true
    · simp only [h, if_true, List.length_cons, List.cons_append, List.drop_succ_cons]
      rw [ih]
    · simp [h]

theorem goodAt_iff (s : List Char) :
    goodAt s = true ↔
      ∃ hex suf, s = markerL ++ (hex ++ suf) ∧ hex.all isHex = true ∧ 5 ≤ hex.length := by
  constructor
  · intro h
    simp only [goodAt, Bool.and_eq_true, decide_eq_true_eq] at h
    obtain ⟨h1, h2⟩ := h
    obtain ⟨t, rfl⟩ := (leadsWith_iff markerL s).mp h1
    rw [List.drop_left] at h2
    refine ⟨hexRun t, List.drop (hexRun t).length t, ?_, hexRun_all t, h2⟩
    rw [hexRun_append_drop]
  · rintro ⟨hex, suf, rfl, hall, hlen⟩
    simp only [goodAt, Bool.and_eq_true, decide_eq_true_eq]
    refine ⟨(leadsWith_iff _ _).mpr ⟨hex ++ suf, rfl⟩, ?_⟩
    rw [List.drop_left, hexRun_append hex suf hall]
    calc 5 ≤ hex.length := hlen
      _ ≤ (hex ++ hexRun suf).length := by simp

theorem searchSha_pos (s : List Char) (h : goodAt s = true) :
    searchSha s = some (shaAt s) := by
  cases s with
  | nil => exact absurd h (by decide)
  | cons c cs => simp [searchSha, h]

theorem searchSha_skip (pre rest : List Char)
    (h : ∀ i, i < pre.length → goodAt (List.drop i (pre ++ rest)) = false) :
    searchSha (pre ++ rest) = searchSha rest := by
  induction pre with
  | nil => rfl
  | cons p ps ih =>
    have h0 : goodAt (p :: (ps ++ rest)) = false := by
      have := h 0 (by simp)
      simpa using this
    rw [List.cons_append]
    simp only [searchSha, h0, Bool.false_eq_true, if_false]
    exact ih (fun i hi => by
      have := h (i + 1) (by simpa using Nat.succ_lt_succ hi)
      simpa using this)

theorem searchSha_none_iff (s : List Char) :
    searchSha s = none ↔ ∀ i, goodAt (List.drop i s) = false := by
  induction s with
  | nil =>
    constructor
    · intro _ i
      rw [List.drop_nil]
      decide
    · intro _; rfl
  | cons c cs ih =>
    cases hg : goodAt (c :: cs) with
    | true =>
      constructor
      · intro hn
        simp only [searchSha, hg, if_true] at hn
        exact Option.noConfusion hn
      · intro hall
        have h0 := hall 0
        rw [List.drop_zero, hg] at h0
        cases h0
    | false =>
      simp only [searchSha, hg, Bool.false_eq_true, if_false]
      rw [ih]
      constructor
      · intro hall i
        cases i with
        | zero => rw [List.drop_zero]; exact hg
        | succ j => rw [List.drop_succ_cons]; exact hall j
      · intro hall j
        have := hall (j + 1)
        rw [List.drop_succ_cons] at this
        exact this

theorem searchSha_some_ne_nil (s loc : List Char) (h : searchSha s = some loc) :
    loc ≠ [] := by
  induction s with
  | nil => cases h
  | cons c cs ih =>
    by_cases hg : goodAt (c :: cs) = true
    · simp only [searchSha, hg, if_true] at h
      injection h with h
      subst h
      simp only [goodAt, Bool.and_eq_true, decide_eq_true_eq] at hg
      intro hnil
      have hlen : (shaAt (c :: cs)).length = 0 := by rw [hnil]; rfl
      rw [shaAt, List.length_take] at hlen
      have h5 := hg.2
      omega
    · simp only [searchSha, hg, if_false] at h
      exact ih h

theorem replaceAllGo_fuel (old new : List Char) (hold : old ≠ []) :
    ∀ f₁ f₂ s, s.length ≤ f₁ → s.length ≤ f₂ →
      replaceAllGo old new f₁ s = replaceAllGo old new f₂ s := by
  have hol : 1 ≤ old.length := by
    cases old with
    | nil => exact absurd rfl hold
    | cons _ _ => simp
  intro f₁
  induction f₁ with
  | zero =>
    intro f₂ s h1 h2
    have hs : s = [] := List.eq_nil_of_length_eq_zero (Nat.le_zero.mp h1)
    subst hs
    cases f₂ <;> rfl
  | succ f ih =>
    intro f₂ s h1 h2
    cases s with
    | nil => cases f₂ <;> rfl
    | cons c cs =>
      cases f₂ with
      | zero => simp at h2
      | succ g =>
        simp only [replaceAllGo]
        simp only [List.length_cons] at h1 h2
        by_cases hl : leadsWith old (c :: cs) = true
        · simp only [hl, if_true]
          congr 1
          apply ih
          · simp only [List.length_drop, List.length_cons]; omega
          · simp only [List.length_drop, List.length_cons]; omega
        · have hl' : leadsWith old (c :: cs) = false := by
            cases hv : leadsWith old (c :: cs) with
            | true => exact absurd hv hl
            | false => rfl
          simp only [hl', Bool.false_eq_true, if_false]
          congr 1
          apply ih <;> omega

theorem replaceAll_cons (old new : List Char) (c : Char) (rest : List Char) (hold : old ≠ []) :
    replaceAll (c :: rest) old new =
      if leadsWith old (c :: rest) then
        new ++ replaceAll (List.drop old.length (c :: rest)) old new
      else c :: replaceAll rest old new := by
  have hol : 1 ≤ old.length := by
    cases old with
    | nil => exact absurd rfl hold
    | cons _ _ => simp
  have hne : old.isEmpty = false := by
    cases old with
    | nil => exact absurd rfl hold
    | cons _ _ => rfl
  simp only [replaceAll, hne, Bool.false_eq_true, if_false, List.length_cons]
  simp only [replaceAllGo]
  by_cases hl : leadsWith old (c :: rest) = true
  · simp only [hl, if_true]
    congr 1
    apply replaceAllGo_fuel old new hold
    · simp only [List.length_drop, List.length_cons]; omega
    · exact Nat.le_refl _
  · have hl' : leadsWith old (c :: rest) = false := by
      cases hv : leadsWith old (c :: rest) with
      | true => exact absurd hv hl
      | false => rfl
    simp only [hl', Bool.false_eq_true, if_false]

theorem replaceAll_first (pre suf old new : List Char) (hold : old ≠ [])
    (h : ∀ i, i < pre.length → leadsWith old (List.drop i (pre ++ (old ++ suf))) = false) :
    replaceAll (pre ++ (old ++ suf)) old new = pre ++ (new ++ replaceAll suf old new) := by
  induction pre with
  | nil =>
    simp only [List.nil_append]
    cases old with
    | nil => exact absurd rfl hold
    | cons a as =>
      rw [List.cons_append, replaceAll_cons _ _ _ _ hold]
      have hl : leadsWith (a :: as) (a :: (as ++ suf)) = true := by
        rw [← List.cons_append]
        exact (leadsWith_iff _ _).mpr ⟨suf, rfl⟩
      rw [if_pos hl]
      have hdrop : List.drop (a :: as).length (a :: (as ++ suf)) = suf := by
        rw [← List.cons_append]
        exact List.drop_left _ _
      rw [hdrop]
  | cons p ps ih =>
    have h0 : leadsWith old (p :: (ps ++ (old ++ suf))) = false := by
      have := h 0 (by simp)
      simpa using this
    rw [List.cons_append, replaceAll_cons _ _ _ _ hold, h0]
    simp only [Bool.false_eq_true, if_false]
    rw [ih (fun i hi => by
      have := h (i + 1) (by simp only [List.length_cons]; omega)
      rw [List.cons_append, List.drop_succ_cons] at this
      exact this)]
    rw [List.cons_append]

/-- C1 (amended): when the extracted local reference differs from the fetched
remote reference, the rewritten file replaces the first occurrence of the old
reference with the new one, and — because Python `str.replace` substitutes
every occurrence — every later occurrence of the old reference in the
remainder of the file is replaced as well; the reported message includes the
new reference. -/
theorem C1_theorem (net : HttpResult) (pre suf loc remote : List Char)
    (hfetch : get_latest_jupyterlabdockerfile_sha net = .ok remote)
    (hextract : searchSha (pre ++ (loc ++ suf)) = some loc)
    (hne : remote ≠ loc)
    (hfirst : ∀ i, i < pre.length → leadsWith loc (List.drop i (pre ++ (loc ++ suf))) = false) :
    (main net (some (pre ++ (loc ++ suf)))).file =
      some (pre ++ (remote ++ replaceAll suf loc remote)) ∧
    (main net (some (pre ++ (loc ++ suf)))).outcome = .ok (msgNew remote) := by
  have hold : loc ≠ [] := searchSha_some_ne_nil _ _ hextract
  simp only [main, hfetch, get_dockerfile_sha, hextract, if_pos hne]
  exact ⟨by rw [replaceAll_first _ _ _ _ hold hfirst], by trivial⟩

theorem C1_witness :
    (main goodNet (some (markerL ++ ("abcde".data ++ " abcde".data)))).file =
      some (markerL ++ ("fffff".data ++ replaceAll (" abcde".data) ("abcde".data) ("fffff".data))) ∧
    (main goodNet (some (markerL ++ ("abcde".data ++ " abcde".data)))).outcome =
      .ok (msgNew ("fffff".data)) :=
  C1_theorem goodNet markerL (" abcde".data) ("abcde".data) ("fffff".data)
    (by decide) (by decide) (by decide) (by decide)

/-- C1 fails as stated: on a file holding a second occurrence of the old
reference after the pinned one, the rewrite also replaces the second
occurrence, so the rest of the content is not byte-for-byte unchanged. -/
theorem C1_counterexample :
    (main goodNet (some (markerL ++ "abcde and abcde".data))).file =
      some (markerL ++ "fffff and fffff".data) ∧
    markerL ++ "fffff and fffff".data ≠ markerL ++ "fffff and abcde".data :=
  ⟨by decide, by decide⟩

/-- C2: the source never inspects the HTTP status code before parsing, so a
non-2xx response whose body still parses as a commit array yields its sha
instead of failing with NetworkError, contradicting the specified
fail-on-non-2xx behaviour (a gap the spec itself flags as a latent bug). -/
theorem C2_theorem :
    get_latest_jupyterlabdockerfile_sha (.response 404 (.jsonArray [some ("fffff".data)])) =
      .ok ("fffff".data) ∧
    get_latest_jupyterlabdockerfile_sha (.response 404 (.jsonArray [some ("fffff".data)])) ≠
      .err .networkError :=
  ⟨by decide, by decide⟩

/-- C3 (amended): every run issues its single network request first, before
the file is read or the pinned reference extracted — the source fetches the
remote sha on line 15 and only then reads the Dockerfile on line 16. -/
theorem C3_theorem (net : HttpResult) (file : Option (List Char)) :
    (main net file).events.head? = some Ev.netGet ∧
    (main net file).events.count Ev.netGet = 1 := by
  cases hf : get_latest_jupyterlabdockerfile_sha net with
  | err e => simp only [main, hf]; exact ⟨by trivial, by decide⟩
  | ok r =>
    cases file with
    | none => simp only [main, hf]; exact ⟨by trivial, by decide⟩
    | some content =>
      cases hd : get_dockerfile_sha content with
      | none => simp only [main, hf, hd]; exact ⟨by trivial, by decide⟩
      | some loc =>
        by_cases h : r ≠ loc
        · simp only [main, hf, hd, if_pos h]; exact ⟨by trivial, by decide⟩
        · simp only [main, hf, hd, if_neg h]; exact ⟨by trivial, by decide⟩

/-- C3 fails as stated: on a run whose local extraction fails (the file has
no pinned reference), a network request is still issued — and it precedes the
file read. -/
theorem C3_counterexample :
    (main goodNet (some ("no marker here".data))).events = [Ev.netGet, Ev.fileRead] ∧
    (main goodNet (some ("no marker here".data))).outcome = .err .patternNotFound ∧
    Ev.netGet ∈ (main goodNet (some ("no marker here".data))).events :=
  ⟨by decide, by decide, by decide⟩

/-- C4: on contents whose (first-matching) marker is immediately followed by a
maximal run of lowercase hex digits of length between 5 and 40, extraction
returns exactly that hex string. -/
theorem C4_theorem (pre hex suf : List Char)
    (hhex : hex.all isHex = true) (h5 : 5 ≤ hex.length) (h40 : hex.length ≤ 40)
    (hmax : hexRun suf = [])
    (hfirst : ∀ i, i < pre.length →
      goodAt (List.drop i (pre ++ (markerL ++ (hex ++ suf)))) = false) :
    searchSha (pre ++ (markerL ++ (hex ++ suf))) = some hex := by
  rw [searchSha_skip _ _ hfirst]
  have hg : goodAt (markerL ++ (hex ++ suf)) = true :=
    (goodAt_iff _).mpr ⟨hex, suf, rfl, hhex, h5⟩
  rw [searchSha_pos _ hg, shaAt, List.drop_left, hexRun_append _ _ hhex, hmax,
    List.append_nil, List.take_of_length_le h40]

theorem C4_witness :
    searchSha (([] : List Char) ++ (markerL ++ ("abcde".data ++ "!".data))) =
      some ("abcde".data) :=
  C4_theorem [] ("abcde".data) ("!".data) (by decide) (by decide) (by decide) (by decide)
    (fun i hi => absurd hi (Nat.not_lt_zero i))

/-- C5: when the extracted local reference equals the fetched remote
reference, the run writes nothing — the file is unchanged, no write event
occurs — and the reported message is the up-to-date message. -/
theorem C5_theorem (net : HttpResult) (content r : List Char)
    (hfetch : get_latest_jupyterlabdockerfile_sha net = .ok r)
    (hextract : get_dockerfile_sha content = some r) :
    (main net (some content)).file = some content ∧
    Ev.fileWrite ∉ (main net (some content)).events ∧
    (main net (some content)).outcome = .ok msgUpToDate := by
  have hne : ¬ (r ≠ r) := fun hh => hh rfl
  simp only [main, hfetch, hextract, if_neg hne]
  exact ⟨by trivial, by decide, by trivial⟩

theorem C5_witness :
    (main goodNet (some (markerL ++ "fffff!".data))).file =
      some (markerL ++ "fffff!".data) ∧
    Ev.fileWrite ∉ (main goodNet (some (markerL ++ "fffff!".data))).events ∧
    (main goodNet (some (markerL ++ "fffff!".data))).outcome = .ok msgUpToDate :=
  C5_theorem goodNet (markerL ++ "fffff!".data) ("fffff".data) (by decide) (by decide)

/-- C6 (amended): a second run with an unchanged upstream leaves the file
unmodified provided extraction on the state left by the first run either
fails or yields exactly the fetched reference; in general the rewrite may
leave a file whose extracted reference differs from the fetched one (the
40-character cap cuts a longer hex run), and then the second run writes
again. -/
theorem C6_theorem (net : HttpResult) (file : Option (List Char))
    (h : secondRunStable net ((main net file).file) = true) :
    (main net ((main net file).file)).file = (main net file).file := by
  cases hfetch : get_latest_jupyterlabdockerfile_sha net with
  | err e => simp [main, hfetch]
  | ok r =>
    cases hf1 : (main net file).file with
    | none => simp [main, hfetch]
    | some c =>
      cases hd : get_dockerfile_sha c with
      | none => simp [main, hfetch, hd]
      | some loc =>
        have hstab : get_latest_jupyterlabdockerfile_sha net = .ok loc := by
          rw [hf1] at h
          simp only [secondRunStable, hd, decide_eq_true_eq] at h
          exact h
        rw [hfetch] at hstab
        injection hstab with hrl
        subst hrl
        have hne : ¬ (r ≠ r) := fun hh => hh rfl
        simp only [main, hfetch, hd, if_neg hne]

theorem C6_witness :
    (main goodNet ((main goodNet (some (markerL ++ "abcde!".data))).file)).file =
      (main goodNet (some (markerL ++ "abcde!".data))).file :=
  C6_theorem goodNet (some (markerL ++ "abcde!".data)) (by decide)

/-- C6 fails as stated: starting from a Dockerfile whose marker is followed by
41 hex digits, the first run extracts only the first 40 of them (the regex
cap), rewrites them to the 5-character remote sha and leaves the 41st digit
glued to it; the second run then extracts the 6-character merged string,
which differs from the remote sha, and modifies the file again. -/
theorem C6_counterexample :
    (main goodNet (some (markerL ++ List.replicate 41 'a'))).file =
      some (markerL ++ ("fffff".data ++ ['a'])) ∧
    (main goodNet ((main goodNet (some (markerL ++ List.replicate 41 'a'))).file)).file ≠
      (main goodNet (some (markerL ++ List.replicate 41 'a'))).file :=
  ⟨by decide, by decide⟩

/-- C7: extraction fails exactly when the contents admit no decomposition
around the marker followed by at least five lowercase hex digits — i.e. no
position at which the pattern matches; whenever such a match exists,
extraction succeeds. -/
theorem C7_theorem (s : List Char) :
    searchSha s = none ↔
      ¬ ∃ pre hex suf, s = pre ++ (markerL ++ (hex ++ suf)) ∧
        hex.all isHex = true ∧ 5 ≤ hex.length := by
  rw [searchSha_none_iff]
  constructor
  · rintro hall ⟨pre, hex, suf, hs, hhex, h5⟩
    have hg : goodAt (List.drop pre.length s) = true := by
      subst hs
      rw [List.drop_left]
      exact (goodAt_iff _).mpr ⟨hex, suf, rfl, hhex, h5⟩
    have hbad := hall pre.length
    rw [hbad] at hg
    cases hg
  · intro hnex i
    cases hg : goodAt (List.drop i s) with
    | false => rfl
    | true =>
      exfalso
      obtain ⟨hex, suf, hdec, hhex, h5⟩ := (goodAt_iff _).mp hg
      exact hnex ⟨List.take i s, hex, suf, by rw [← hdec, List.take_append_drop], hhex, h5⟩

/-- C9: the character class of the pattern is exactly the lowercase hex
digits: a marker immediately followed by a non-member (such as an uppercase
hex letter) yields no match at that position, and contents in which no
decomposition after a marker begins with at least 5 lowercase hex digits
admit no match at all. -/
theorem C9_theorem (pre rest : List Char) (c : Char) (hc : isHex c = false)
    (s : List Char) (hs : ∀ p r, s = p ++ (markerL ++ r) → (hexRun r).length < 5) :
    goodAt (List.drop pre.length (pre ++ (markerL ++ (c :: rest)))) = false ∧
    searchSha s = none := by
  constructor
  · rw [List.drop_left]
    have h2 : hexRun (List.drop markerL.length (markerL ++ (c :: rest))) = [] := by
      rw [List.drop_left]
      simp [hexRun, hc]
    rw [goodAt, h2]
    simp
  · rw [searchSha_none_iff]
    intro i
    cases hg : goodAt (List.drop i s) with
    | false => rfl
    | true =>
      exfalso
      obtain ⟨hex, suf, hdec, hhex, h5⟩ := (goodAt_iff _).mp hg
      have hlt := hs (List.take i s) (hex ++ suf) (by rw [← hdec, List.take_append_drop])
      rw [hexRun_append _ _ hhex, List.length_append] at hlt
      omega

theorem C9_witness :
    goodAt (List.drop (List.length ([] : List Char))
      (([] : List Char) ++ (markerL ++ ['A']))) = false ∧
    searchSha ([] : List Char) = none :=
  C9_theorem [] [] 'A' (by decide) [] (fun p r hpr => by
    exfalso
    have hl := congrArg List.length hpr
    have hm : markerL.length = 41 := by decide
    simp only [List.length_nil, List.length_append] at hl
    omega)

/-- C10: when the (first-matching) marker is immediately followed by more than
40 consecutive lowercase hex digits, the greedy quantifier is capped at 40:
extraction returns exactly the first 40 digits, leaving the rest in place. -/
theorem C10_theorem (pre hex suf : List Char)
    (hhex : hex.all isHex = true) (h41 : 40 < hex.length)
    (hfirst : ∀ i, i < pre.length →
      goodAt (List.drop i (pre ++ (markerL ++ (hex ++ suf)))) = false) :
    searchSha (pre ++ (markerL ++ (hex ++ suf))) = some (List.take 40 hex) := by
  rw [searchSha_skip _ _ hfirst]
  have hg : goodAt (markerL ++ (hex ++ suf)) = true :=
    (goodAt_iff _).mpr ⟨hex, suf, rfl, hhex, by omega⟩
  rw [searchSha_pos _ hg, shaAt, List.drop_left, hexRun_append _ _ hhex,
    List.take_append_eq_append_take]
  have h0 : 40 - hex.length = 0 := by omega
  rw [h0, List.take_zero, List.append_nil]

theorem C10_witness :
    searchSha (([] : List Char) ++ (markerL ++ (List.replicate 41 'a' ++ ([] : List Char)))) =
      some (List.take 40 (List.replicate 41 'a')) :=
  C10_theorem [] (List.replicate 41 'a') [] (by decide) (by decide)
    (fun i hi => absurd hi (Nat.not_lt_zero i))

/-- C8: any failing run — missing file, no pattern match, connection failure,
malformed response — leaves the file untouched and performs no write. -/
theorem C8_theorem (net : HttpResult) (file : Option (List Char)) (e : Err)
    (h : (main net file).outcome = .err e) :
    (main net file).file = file ∧ Ev.fileWrite ∉ (main net file).events := by
  cases hf : get_latest_jupyterlabdockerfile_sha net with
  | err e2 => simp only [main, hf]; exact ⟨by trivial, by decide⟩
  | ok r =>
    cases file with
    | none => simp only [main, hf]; exact ⟨by trivial, by decide⟩
    | some content =>
      cases hd : get_dockerfile_sha content with
      | none => simp only [main, hf, hd]; exact ⟨by trivial, by decide⟩
      | some loc =>
        by_cases hne : r ≠ loc
        · exfalso
          simp only [main, hf, hd, if_pos hne] at h
          exact Res.noConfusion h
        · simp only [main, hf, hd, if_neg hne]; exact ⟨by trivial, by decide⟩

theorem C8_witness :
    (main HttpResult.connFailure none).file = none ∧
    Ev.fileWrite ∉ (main HttpResult.connFailure none).events :=
  C8_theorem HttpResult.connFailure none Err.networkError (by decide)

end DockerUpdate
